import Mathlib

/- Shallow embedding of the tiktokenx BPE tokenizer core
   (src/core.rs, src/vocab.rs, src/encodings.rs).

   Modelling conventions:
   * Texts and byte sequences (`&str` / `&[u8]` / `Vec<u8>`) are `List Nat`
     of byte values; a Rust `String` is identified with its UTF-8 byte list.
   * `Token` and `Rank` are `u32` in the source; they are modelled as `Nat`
     (the source never performs arithmetic on them, only comparisons and the
     sentinel `Rank::MAX = 4294967295`), `usize::MAX` likewise.
   * `HashMap` values are modelled as association lists with first-match
     lookup (`List.lookup`); a `HashMap` has unique keys, so first-match
     lookup agrees with it.
   * The two compiled regexes of `CoreBPE` cannot be embedded; they are
     carried as abstract functions: `split` returns the byte slices of
     `regex.find_iter` in match order, and `specialRegex` (an `Option`,
     mirroring the source field) returns the (start, end) byte spans of
     `special_regex.find_iter` on a haystack.
   * Rust panics (indexing a map with a missing key, slice underflow) are
     modelled by `Option`: `none` is a panic.
   * Errors are the constructors of `TiktokenError` used by the modelled
     code; message strings are replaced by their payload (the offending
     token bytes), which is the information the format strings carry. -/

abbrev Bytes := List Nat
abbrev Token := Nat
abbrev Rank := Nat

/-- `Rank::MAX` / `Token::MAX` (`u32::MAX`). -/
def RANK_MAX : Nat := 4294967295

/-- `usize::MAX`, the initial index in the minimum scan. -/
def USIZE_MAX : Nat := 18446744073709551615

/-- The error kinds of src/errors.rs reachable from the modelled operations. -/
inductive TiktokenError where
  | InvalidToken (t : Token)
  | EncodingError (tok : Bytes)
  | DecodingError
  | DataError
  deriving DecidableEq, Repr

/-- The `CoreBPE` state after `CoreBPE::new` (src/core.rs).
    `encoder` is the mergeable-ranks map; `specialEncoder` maps special-token
    byte strings to their ids; `split` and `specialRegex` model the two
    compiled regexes (see the header comment). -/
structure CoreBPE where
  encoder : List (Bytes × Token)
  specialEncoder : List (Bytes × Token)
  split : Bytes → List Bytes
  specialRegex : Option (Bytes → List (Nat × Nat))

/-- The reverse map built in `CoreBPE::new`:
    `encoder.iter().map(|(bytes, &token)| (token, bytes.clone())).collect()`. -/
def CoreBPE.decoder (c : CoreBPE) : List (Token × Bytes) :=
  c.encoder.map (fun p => (p.2, p.1))

/-- The special reverse map built in `CoreBPE::new` from the special-token
    encoder (token id to the token's byte string). -/
def CoreBPE.specialDecoder (c : CoreBPE) : List (Token × Bytes) :=
  c.specialEncoder.map (fun p => (p.2, p.1))

/-- `&piece[s..e]` on byte slices. -/
def byteSlice (piece : Bytes) (s e : Nat) : Bytes :=
  (piece.drop s).take (e - s)

/-- `self.encoder.get(k).copied().unwrap_or(Rank::MAX)`. -/
def rankOf (c : CoreBPE) (k : Bytes) : Rank :=
  (List.lookup k c.encoder).getD RANK_MAX

/-- The minimum-rank scan of `byte_pair_merge`: walk the `(start, rank)`
    entries keeping the pair `(rank, index)`; an entry replaces the current
    minimum only when its rank is strictly smaller, so ties keep the
    leftmost entry.  Used both for the initial scan during construction and
    for the rescan `for (idx, &(_, rank)) in parts[..len-1].iter().enumerate()`. -/
def minRankAux : List (Nat × Nat) → Nat → Nat × Nat → Nat × Nat
  | [], _, acc => acc
  | p :: l, idx, acc =>
    minRankAux l (idx + 1) (if p.2 < acc.1 then (p.2, idx) else acc)

/-- `CoreBPE::get_pair_rank` (src/core.rs lines 253-261). -/
def get_pair_rank (c : CoreBPE) (piece : Bytes) (parts : List (Nat × Nat)) (i : Nat) : Rank :=
  if i + 3 < parts.length then
    rankOf c (byteSlice piece (parts.getD i (0, 0)).1 (parts.getD (i + 3) (0, 0)).1)
  else RANK_MAX

/-- `parts[j].1 = r` keeping the start.  Out-of-bounds indices leave the list
    unchanged (unreachable in the modelled loop, where the chosen index is
    always in bounds; Rust would panic). -/
def setRank (parts : List (Nat × Nat)) (j : Nat) (r : Rank) : List (Nat × Nat) :=
  parts.set j ((parts.getD j (0, 0)).1, r)

/-- One iteration body of the merge loop of `byte_pair_merge`
    (src/core.rs lines 228-239): update the ranks at `i-1` (if `i > 0`)
    and `i` with `get_pair_rank` computed before removal, then remove
    entry `i+1`. -/
def bpeStep (c : CoreBPE) (piece : Bytes) (parts : List (Nat × Nat)) (i : Nat) :
    List (Nat × Nat) :=
  let p1 := if 0 < i then setRank parts (i - 1) (get_pair_rank c piece parts (i - 1)) else parts
  let p2 := setRank p1 i (get_pair_rank c piece p1 i)
  p2.eraseIdx (i + 1)

/-- The `while min_rank.0 != Rank::MAX` loop of `byte_pair_merge`.  `mr` is
    the carried minimum `(rank, index)`; after each step it is recomputed by
    scanning `parts[..len-1]`.  The fuel bounds the iteration count; each
    iteration removes one list entry, so `piece.length` fuel is never
    exhausted on the inputs the source can reach. -/
def bpeLoop (c : CoreBPE) (piece : Bytes) :
    Nat → Nat × Nat → List (Nat × Nat) → List (Nat × Nat)
  | 0, _, parts => parts
  | fuel + 1, mr, parts =>
    if mr.1 = RANK_MAX then parts
    else
      let parts' := bpeStep c piece parts mr.2
      bpeLoop c piece fuel (minRankAux parts'.dropLast 0 (RANK_MAX, USIZE_MAX)) parts'

/-- The initial `(start, rank)` entries pushed by the first loop of
    `byte_pair_merge` (one per adjacent pair of `piece`). -/
def initParts (c : CoreBPE) (piece : Bytes) : List (Nat × Nat) :=
  (List.range (piece.length - 1)).map (fun i => (i, rankOf c (byteSlice piece i (i + 2))))

/-- `CoreBPE::byte_pair_merge` (src/core.rs lines 208-250): build the initial
    entries plus the two sentinels, take the minimum found during the build
    scan, and run the merge loop. -/
def byte_pair_merge (c : CoreBPE) (piece : Bytes) : List (Nat × Nat) :=
  let real := initParts c piece
  let parts := real ++ [(piece.length - 1, RANK_MAX), (piece.length, RANK_MAX)]
  bpeLoop c piece piece.length (minRankAux real 0 (RANK_MAX, USIZE_MAX)) parts

/-- The `parts.windows(2)` slices of the final parts list. -/
def mergeSlices (piece : Bytes) (parts : List (Nat × Nat)) : List Bytes :=
  (parts.zip parts.tail).map (fun w => byteSlice piece w.1.1 w.2.1)

/-- `CoreBPE::byte_pair_encode` (src/core.rs lines 191-205).  `none` models
    the panic of `self.encoder[..]` on a missing key. -/
def byte_pair_encode (c : CoreBPE) (piece : Bytes) : Option (List Token) :=
  if piece.length = 1 then (List.lookup piece c.encoder).map (fun t => [t])
  else (mergeSlices piece (byte_pair_merge c piece)).mapM (fun sl => List.lookup sl c.encoder)

/-- The per-piece body of `encode_ordinary`: the single-token fast path
    `encoder.get(piece)`, else `byte_pair_encode`. -/
def encodePiece (c : CoreBPE) (piece : Bytes) : Option (List Token) :=
  match List.lookup piece c.encoder with
  | some t => some [t]
  | none => byte_pair_encode c piece

/-- The accumulator loop of `encode_ordinary` over the regex matches. -/
def encodeOrdinaryGo (c : CoreBPE) : List Bytes → List Token → Option (List Token)
  | [], acc => some acc
  | piece :: rest, acc =>
    match encodePiece c piece with
    | some ts => encodeOrdinaryGo c rest (acc ++ ts)
    | none => none

/-- `CoreBPE::encode_ordinary` (src/core.rs lines 72-88). -/
def encode_ordinary (c : CoreBPE) (text : Bytes) : Option (List Token) :=
  encodeOrdinaryGo c (c.split text) []

/-- `CoreBPE::decode_bytes` (src/core.rs lines 157-171): ordinary reverse map
    first, then the special reverse map, else `InvalidToken`. -/
def decode_bytes (c : CoreBPE) : List Token → Except TiktokenError Bytes
  | [] => .ok []
  | t :: ts =>
    match List.lookup t c.decoder with
    | some bs => (decode_bytes c ts).map (fun rest => bs ++ rest)
    | none =>
      match List.lookup t c.specialDecoder with
      | some bs => (decode_bytes c ts).map (fun rest => bs ++ rest)
      | none => .error (.InvalidToken t)

/-- Continuation byte test (0x80..=0xBF). -/
def contB (b : Nat) : Bool := 0x80 ≤ b && b ≤ 0xBF

/-- Model of `std::string::String::from_utf8` validity (RFC 3629 ranges,
    as checked by the Rust standard library): ASCII, or a well-formed
    2-4 byte sequence with the restricted ranges for E0/ED/F0/F4 leads. -/
def Utf8Valid : List Nat → Bool
  | [] => true
  | b :: l =>
    if b ≤ 0x7F then Utf8Valid l
    else
      match l with
      | [] => false
      | c1 :: l2 =>
        if 0xC2 ≤ b ∧ b ≤ 0xDF then contB c1 && Utf8Valid l2
        else
          match l2 with
          | [] => false
          | c2 :: l3 =>
            if b = 0xE0 then (0xA0 ≤ c1 && c1 ≤ 0xBF) && (contB c2 && Utf8Valid l3)
            else if (0xE1 ≤ b ∧ b ≤ 0xEC) ∨ (0xEE ≤ b ∧ b ≤ 0xEF) then
              contB c1 && (contB c2 && Utf8Valid l3)
            else if b = 0xED then (0x80 ≤ c1 && c1 ≤ 0x9F) && (contB c2 && Utf8Valid l3)
            else
              match l3 with
              | [] => false
              | c3 :: l4 =>
                if b = 0xF0 then
                  (0x90 ≤ c1 && c1 ≤ 0xBF) && (contB c2 && (contB c3 && Utf8Valid l4))
                else if 0xF1 ≤ b ∧ b ≤ 0xF3 then
                  contB c1 && (contB c2 && (contB c3 && Utf8Valid l4))
                else if b = 0xF4 then
                  (0x80 ≤ c1 && c1 ≤ 0x8F) && (contB c2 && (contB c3 && Utf8Valid l4))
                else false

/-- `CoreBPE::decode` (src/core.rs lines 174-177): decode to bytes, then
    UTF-8-validate.  The returned Rust `String` is identified with its byte
    list. -/
def decode (c : CoreBPE) (ts : List Token) : Except TiktokenError Bytes :=
  match decode_bytes c ts with
  | .ok bs => if Utf8Valid bs then .ok bs else .error .DecodingError
  | .error e => .error e

/-- The cursor loop of `CoreBPE::encode` (src/core.rs lines 117-151): find
    the next allowed special match in `text[start..]`, encode the ordinary
    text before it, push the special token id, continue after it; with no
    allowed match, encode the remainder and stop.  The fuel bounds the
    iterations (the Rust loop advances the cursor past each found special
    token, which is nonempty for every real special regex). -/
def encodeLoop (c : CoreBPE) (text : Bytes) (allowed : List Bytes) :
    Nat → Nat → List Token → Option (List Token)
  | 0, _, acc => some acc
  | fuel + 1, start, acc =>
    if start < text.length then
      let found : Option (Nat × Nat) :=
        match c.specialRegex with
        | some f =>
          (f (text.drop start)).find?
            (fun sp => allowed.contains (byteSlice text (start + sp.1) (start + sp.2)))
        | none => none
      match found with
      | some sp =>
        let nss := start + sp.1
        let nse := start + sp.2
        let step : Option (List Token) :=
          if start < nss then (encode_ordinary c (byteSlice text start nss)).map (acc ++ ·)
          else some acc
        match step with
        | none => none
        | some acc2 =>
          let acc3 :=
            match List.lookup (byteSlice text nss nse) c.specialEncoder with
            | some t => acc2 ++ [t]
            | none => acc2
          encodeLoop c text allowed fuel nse acc3
      | none =>
        (encode_ordinary c (byteSlice text start text.length)).map (acc ++ ·)
    else some acc

/-- `CoreBPE::encode` (src/core.rs lines 91-154): first the disallowed-special
    scan over the whole input, then the cursor loop.  The outer `Option`
    models panics inside `encode_ordinary`; the inner `Except` is the
    source's `Result`. -/
def encode (c : CoreBPE) (text : Bytes) (allowed disallowed : List Bytes) :
    Option (Except TiktokenError (List Token)) :=
  let check : Option TiktokenError :=
    if disallowed.isEmpty then none
    else
      match c.specialRegex with
      | some f =>
        ((f text).find? (fun sp =>
            disallowed.contains (byteSlice text sp.1 sp.2) &&
              !allowed.contains (byteSlice text sp.1 sp.2))).map
          (fun sp => .EncodingError (byteSlice text sp.1 sp.2))
      | none => none
  match check with
  | some e => some (.error e)
  | none => (encodeLoop c text allowed (text.length + 1) 0 []).map .ok

/- ----------------------------------------------------------------
   The reference merge step of spec.md section 4.3 (for claim C5):
   remove entry i+1 first, then recompute the rank at entry i and at
   entry i-1 as MergeTable[input[list[j].start .. list[j+2].start]]
   (RANK_MAX when absent or when entry j+2 does not exist).
   ---------------------------------------------------------------- -/

/-- Modelled from the spec: the post-removal rank at position `j`,
    `MergeTable[input[list[j].start .. list[j+2].start]]` or `RANK_MAX`
    if absent (or if entry `j+2` does not exist). -/
def specPairRank (c : CoreBPE) (piece : Bytes) (parts : List (Nat × Nat)) (j : Nat) : Rank :=
  if j + 2 < parts.length then
    rankOf c (byteSlice piece (parts.getD j (0, 0)).1 (parts.getD (j + 2) (0, 0)).1)
  else RANK_MAX

/-- Modelled from the spec: one merge step of the reference algorithm of
    spec.md section 4.3 step 4 — remove entry `i+1`, then recompute the
    rank at entry `i` and at entry `i-1` (if `i > 0`). -/
def bpeStepSpec (c : CoreBPE) (piece : Bytes) (parts : List (Nat × Nat)) (i : Nat) :
    List (Nat × Nat) :=
  let m := parts.eraseIdx (i + 1)
  let m1 := setRank m i (specPairRank c piece m i)
  if 0 < i then setRank m1 (i - 1) (specPairRank c piece m1 (i - 1)) else m1

/-- Modelled from the spec: the merge loop of section 4.3 built on
    `bpeStepSpec` (selection and termination as in steps 3 and 5). -/
def bpeLoopSpec (c : CoreBPE) (piece : Bytes) :
    Nat → Nat × Nat → List (Nat × Nat) → List (Nat × Nat)
  | 0, _, parts => parts
  | fuel + 1, mr, parts =>
    if mr.1 = RANK_MAX then parts
    else
      let parts' := bpeStepSpec c piece parts mr.2
      bpeLoopSpec c piece fuel (minRankAux parts'.dropLast 0 (RANK_MAX, USIZE_MAX)) parts'

/-- Modelled from the spec: `byte_pair_merge` with the reference merge step
    of spec.md section 4.3. -/
def byte_pair_merge_spec (c : CoreBPE) (piece : Bytes) : List (Nat × Nat) :=
  let real := initParts c piece
  let parts := real ++ [(piece.length - 1, RANK_MAX), (piece.length, RANK_MAX)]
  bpeLoopSpec c piece piece.length (minRankAux real 0 (RANK_MAX, USIZE_MAX)) parts

/- ----------------------------------------------------------------
   The vocabulary parser (src/vocab.rs, parse_tiktoken_bpe).
   Strings are lists of characters; the std helpers it calls
   (str::lines, trim, split_whitespace, u32 parsing and the base64
   standard-alphabet decoder) are modelled below.
   ---------------------------------------------------------------- -/

/-- Split on a separator character (helper for `rustLines`). -/
def splitOnChar (sep : Char) : List Char → List (List Char)
  | [] => [[]]
  | ch :: rest =>
    let r := splitOnChar sep rest
    if ch = sep then [] :: r
    else
      match r with
      | g :: gs => (ch :: g) :: gs
      | [] => [[ch]]

/-- Model of `str::lines`: split on a newline, drop a final empty segment
    (no line after a trailing newline), and strip one trailing CR from each
    line. -/
def rustLines (content : List Char) : List (List Char) :=
  let segs := splitOnChar '\n' content
  let segs := if segs.getLast? = some [] then segs.dropLast else segs
  segs.map (fun l => if l.getLast? = some '\r' then l.dropLast else l)

/-- ASCII whitespace test (the inputs exercised here are ASCII; Rust uses
    the Unicode White_Space class). -/
def isWsChar (ch : Char) : Bool :=
  ch = ' ' || ch = '\t' || ch = '\n' || ch = '\r'

/-- Model of `str::split_whitespace`: split on whitespace runs, dropping
    empty pieces. -/
def splitWhitespaceL (l : List Char) : List (List Char) :=
  ((l.splitOnP isWsChar).map id).filter (fun g => g ≠ [])

/-- Model of `str::trim(..).is_empty()`: every character is whitespace. -/
def trimIsEmpty (l : List Char) : Bool :=
  l.all isWsChar

/-- The base64 standard-alphabet value of a character. -/
def b64Val (ch : Char) : Option Nat :=
  if 'A' ≤ ch ∧ ch ≤ 'Z' then some (ch.toNat - 'A'.toNat)
  else if 'a' ≤ ch ∧ ch ≤ 'z' then some (ch.toNat - 'a'.toNat + 26)
  else if '0' ≤ ch ∧ ch ≤ '9' then some (ch.toNat - '0'.toNat + 52)
  else if ch = '+' then some 62
  else if ch = '/' then some 63
  else none

/-- Decode one base64 quantum of four symbol values into three bytes. -/
def b64Quantum (a b cc d : Nat) : Bytes :=
  [a * 4 + b / 16, (b % 16) * 16 + cc / 4, (cc % 4) * 64 + d]

/-- Model of the base64 standard (padded) decoder used by the source
    (`base64::engine::general_purpose::STANDARD.decode`): groups of four
    symbols, final group may carry one or two padding characters, with
    canonical (zero) trailing bits required. -/
def base64DecodeGroups : List Char → Option Bytes
  | [] => some []
  | c1 :: c2 :: c3 :: c4 :: rest =>
    match b64Val c1, b64Val c2 with
    | some a, some b =>
      if c3 = '=' then
        if c4 = '=' ∧ rest = [] ∧ b % 16 = 0 then some [a * 4 + b / 16] else none
      else
        match b64Val c3 with
        | some cv =>
          if c4 = '=' then
            if rest = [] ∧ cv % 4 = 0 then some [a * 4 + b / 16, (b % 16) * 16 + cv / 4]
            else none
          else
            match b64Val c4 with
            | some d => (base64DecodeGroups rest).map (fun tl => b64Quantum a b cv d ++ tl)
            | none => none
        | none => none
    | _, _ => none
  | _ => none

/-- Model of `u32::from_str` (`parts[1].parse::<Rank>()`): optional leading
    `+`, one or more ASCII digits, value at most `u32::MAX`. -/
def parseU32 (l : List Char) : Option Nat :=
  let l := match l with
    | '+' :: rest => rest
    | other => other
  if l = [] ∨ ¬ l.all Char.isDigit then none
  else
    let v := l.foldl (fun acc ch => acc * 10 + (ch.toNat - '0'.toNat)) 0
    if v ≤ RANK_MAX then some v else none

/-- `HashMap::insert`: overwrite the entry with the same key, else append. -/
def hmInsert (m : List (Bytes × Rank)) (k : Bytes) (v : Rank) : List (Bytes × Rank) :=
  if m.any (fun p => p.1 == k) then m.map (fun p => if p.1 == k then (k, v) else p)
  else m ++ [(k, v)]

/-- The line loop of `parse_tiktoken_bpe`. -/
def parseTiktokenGo : List (List Char) → List (Bytes × Rank) →
    Except TiktokenError (List (Bytes × Rank))
  | [], ranks => .ok ranks
  | line :: rest, ranks =>
    if trimIsEmpty line then parseTiktokenGo rest ranks
    else
      match splitWhitespaceL line with
      | [f1, f2] =>
        match base64DecodeGroups f1 with
        | some tokenBytes =>
          match parseU32 f2 with
          | some tokenRank => parseTiktokenGo rest (hmInsert ranks tokenBytes tokenRank)
          | none => .error .DataError
        | none => .error .DataError
      | _ => .error .DataError

/-- `parse_tiktoken_bpe` (src/vocab.rs lines 78-109): per non-blank line,
    exactly two whitespace-separated fields, base64 bytes and a decimal
    rank, inserted into the map; any other shape is a `DataError`. -/
def parse_tiktoken_bpe (content : List Char) : Except TiktokenError (List (Bytes × Rank)) :=
  parseTiktokenGo (rustLines content) []

/- ----------------------------------------------------------------
   Pattern constants (src/encodings.rs), as code-point lists.
   ---------------------------------------------------------------- -/

/-- `CL100K_PAT_STR` (src/encodings.rs line 56), the code points of the
    shipped pattern string. -/
def CL100K_PAT_STR : List Nat :=
  [92, 112, 123, 76, 125, 43, 124, 92, 112, 123, 78, 125, 43, 124, 91, 94, 92, 115, 92,
   112, 123, 76, 125, 92, 112, 123, 78, 125, 93, 43, 124, 92, 115, 43]

/-- Modelled from the spec: the code points of the canonical cl100k
    reference pattern of spec.md section 6, which section 6 states is
    REQUIRED verbatim for compatibility. -/
def CL100K_CANONICAL_PAT : List Nat :=
  [40, 63, 105, 58, 39, 115, 124, 39, 116, 124, 39, 114, 101, 124, 39, 118, 101, 124, 39,
   109, 124, 39, 108, 108, 124, 39, 100, 41, 124, 91, 94, 92, 114, 92, 110, 92, 112, 123,
   76, 125, 92, 112, 123, 78, 125, 93, 63, 92, 112, 123, 76, 125, 43, 124, 92, 112, 123,
   78, 125, 123, 49, 44, 51, 125, 124, 32, 63, 91, 94, 92, 115, 92, 112, 123, 76, 125, 92,
   112, 123, 78, 125, 93, 43, 91, 92, 114, 92, 110, 93, 42, 124, 92, 115, 42, 91, 92, 114,
   92, 110, 93, 43, 124, 92, 115, 43, 40, 63, 33, 92, 83, 41, 124, 92, 115, 43]

/- ----------------------------------------------------------------
   Generic helper lemmas.
   ---------------------------------------------------------------- -/

/-- The merge table assigns pairwise-distinct ranks: entries with equal
    ranks have equal keys. -/
def DistinctRanks (l : List (Bytes × Token)) : Prop :=
  ∀ p ∈ l, ∀ q ∈ l, p.2 = q.2 → p.1 = q.1

theorem lookup_append {α β : Type} [BEq α] (k : α) (l₁ l₂ : List (α × β)) :
    List.lookup k (l₁ ++ l₂) =
      match List.lookup k l₁ with
      | some v => some v
      | none => List.lookup k l₂ := by
  induction l₁ with
  | nil => simp [List.lookup]
  | cons p t ih =>
    rw [List.cons_append, List.lookup_cons, List.lookup_cons]
    cases k == p.1 <;> simp [ih]

theorem mem_of_lookup {α β : Type} [BEq α] [LawfulBEq α] {k : α} {v : β}
    {l : List (α × β)} (h : List.lookup k l = some v) : (k, v) ∈ l := by
  induction l with
  | nil => simp [List.lookup] at h
  | cons p t ih =>
    rw [List.lookup_cons] at h
    rcases hk : k == p.1 with _ | _
    · rw [hk] at h
      exact List.mem_cons_of_mem _ (ih h)
    · rw [hk] at h
      obtain rfl : p.2 = v := by simpa using h
      obtain rfl : k = p.1 := by simpa using hk
      exact List.mem_cons_self _ _

theorem lookup_isSome_of_mem {α β : Type} [BEq α] [LawfulBEq α] {k : α} {v : β}
    {l : List (α × β)} (h : (k, v) ∈ l) : (List.lookup k l).isSome := by
  induction l with
  | nil => simp at h
  | cons p t ih =>
    rw [List.lookup_cons]
    rcases hk : k == p.1 with _ | _
    · rcases List.mem_cons.1 h with h1 | h2
      · rw [← h1] at hk; simp at hk
      · simp [ih h2]
    · simp

theorem mapM_some_of_forall {α β : Type} (f : α → Option β) :
    ∀ l : List α, (∀ x ∈ l, (f x).isSome) →
      ∃ ys, l.mapM f = some ys ∧ List.Forall₂ (fun x y => f x = some y) l ys := by
  intro l
  induction l with
  | nil => intro _; exact ⟨[], rfl, List.Forall₂.nil⟩
  | cons x t ih =>
    intro h
    obtain ⟨y, hy⟩ := Option.isSome_iff_exists.1 (h x (List.mem_cons_self _ _))
    obtain ⟨ys, hys, hall⟩ := ih (fun z hz => h z (List.mem_cons_of_mem _ hz))
    refine ⟨y :: ys, ?_, List.Forall₂.cons hy hall⟩
    rw [List.mapM_cons, hy, hys]
    rfl

/- Accessors for `(start, rank)` entry lists. -/

/-- The start of entry `j` (0 out of bounds). -/
def pstart (parts : List (Nat × Nat)) (j : Nat) : Nat := (parts.getD j (0, 0)).1

/-- The rank of entry `j` (0 out of bounds). -/
def prank (parts : List (Nat × Nat)) (j : Nat) : Nat := (parts.getD j (0, 0)).2

theorem getD_eq_getElem? {α : Type} (l : List α) (j : Nat) (d : α) :
    l.getD j d = (l[j]?).getD d := List.getD_eq_getElem?_getD l j d

theorem getElem?_setRank (l : List (Nat × Nat)) (j : Nat) (r : Rank) (k : Nat) :
    (setRank l j r)[k]? =
      if j = k ∧ j < l.length then some (pstart l j, r) else l[k]? := by
  rw [setRank, List.getElem?_set]
  by_cases hjk : j = k
  · by_cases hj : j < l.length <;> subst hjk <;> simp [hj, List.getElem?_eq_none,
      Nat.le_of_not_lt, pstart]
  · simp [hjk]

theorem length_setRank (l : List (Nat × Nat)) (j : Nat) (r : Rank) :
    (setRank l j r).length = l.length := by
  simp [setRank]

theorem pstart_setRank (l : List (Nat × Nat)) (j : Nat) (r : Rank) (k : Nat) :
    pstart (setRank l j r) k = pstart l k := by
  rw [pstart, pstart, getD_eq_getElem?, getD_eq_getElem?, getElem?_setRank]
  by_cases h : j = k ∧ j < l.length
  · obtain ⟨rfl, hj⟩ := h
    simp [getD_eq_getElem?, List.getElem?_eq_getElem hj, hj, pstart]
  · simp [h]

theorem prank_setRank (l : List (Nat × Nat)) (j : Nat) (r : Rank) (k : Nat) :
    prank (setRank l j r) k =
      if j = k ∧ j < l.length then r else prank l k := by
  rw [prank, prank, getD_eq_getElem?, getD_eq_getElem?, getElem?_setRank]
  by_cases h : j = k ∧ j < l.length
  · obtain ⟨rfl, hj⟩ := h
    simp [hj]
  · simp [h]

theorem pstart_eraseIdx (l : List (Nat × Nat)) (i k : Nat) :
    pstart (l.eraseIdx i) k = if k < i then pstart l k else pstart l (k + 1) := by
  rw [pstart, pstart, getD_eq_getElem?, getD_eq_getElem?, List.getElem?_eraseIdx]
  by_cases h : k < i <;> simp [h, getD_eq_getElem?, pstart]

theorem prank_eraseIdx (l : List (Nat × Nat)) (i k : Nat) :
    prank (l.eraseIdx i) k = if k < i then prank l k else prank l (k + 1) := by
  rw [prank, prank, getD_eq_getElem?, getD_eq_getElem?, List.getElem?_eraseIdx]
  by_cases h : k < i <;> simp [h, getD_eq_getElem?, prank]

/- ----------------------------------------------------------------
   The minimum scan: it returns the minimum rank, ties broken by the
   lowest index (claim C4's selection rule).
   ---------------------------------------------------------------- -/

theorem minRankAux_spec :
    ∀ (l : List (Nat × Nat)) (idx : Nat) (acc : Nat × Nat),
      (minRankAux l idx acc = acc ∧ ∀ j, j < l.length → acc.1 ≤ prank l j) ∨
      (∃ k, k < l.length ∧ minRankAux l idx acc = (prank l k, idx + k) ∧
        prank l k < acc.1 ∧
        (∀ j, j < l.length → prank l k ≤ prank l j) ∧
        (∀ j, j < k → prank l k < prank l j)) := by
  intro l
  induction l with
  | nil => intro idx acc; left; exact ⟨rfl, fun j h => by simp at h⟩
  | cons p t ih =>
    intro idx acc
    by_cases hp : p.2 < acc.1
    · rcases ih (idx + 1) (p.2, idx) with ⟨heq, hall⟩ | ⟨k, hk, heq, hlt, hall, hleft⟩
      · right
        refine ⟨0, by simp, ?_, by simpa [prank] using hp, ?_, fun j hj => by omega⟩
        · rw [minRankAux, if_pos hp, heq]
          simp [prank]
        · intro j hj
          cases j with
          | zero => exact Nat.le_refl _
          | succ m =>
            have := hall m (by simpa using hj)
            simp only [prank, List.getD_cons_succ, List.getD_cons_zero] at *
            omega
      · right
        refine ⟨k + 1, by simpa using hk, ?_, ?_, ?_, ?_⟩
        · rw [minRankAux, if_pos hp, heq]
          simp only [prank, List.getD_cons_succ]
          congr 1
          omega
        · simp only [prank, List.getD_cons_succ] at *
          omega
        · intro j hj
          cases j with
          | zero =>
            simp only [prank, List.getD_cons_succ, List.getD_cons_zero] at *
            omega
          | succ m => simpa [prank] using hall m (by simpa using hj)
        · intro j hj
          cases j with
          | zero =>
            simp only [prank, List.getD_cons_succ, List.getD_cons_zero] at *
            omega
          | succ m => simpa [prank] using hleft m (by omega)
    · rcases ih (idx + 1) acc with ⟨heq, hall⟩ | ⟨k, hk, heq, hlt, hall, hleft⟩
      · left
        constructor
        · rw [minRankAux, if_neg hp, heq]
        · intro j hj
          cases j with
          | zero => simpa [prank] using Nat.le_of_not_lt hp
          | succ m => simpa [prank] using hall m (by simpa using hj)
      · right
        refine ⟨k + 1, by simpa using hk, ?_, by simpa [prank] using hlt, ?_, ?_⟩
        · rw [minRankAux, if_neg hp, heq]
          simp only [prank, List.getD_cons_succ]
          congr 1
          omega
        · intro j hj
          cases j with
          | zero =>
            simp only [prank, List.getD_cons_succ, List.getD_cons_zero] at *
            omega
          | succ m => simpa [prank] using hall m (by simpa using hj)
        · intro j hj
          cases j with
          | zero =>
            simp only [prank, List.getD_cons_succ, List.getD_cons_zero] at *
            omega
          | succ m => simpa [prank] using hleft m (by omega)

/-- The scan used by the merge loop: its result is at most every scanned
    rank, and when it is not the sentinel it names an in-bounds entry
    carrying exactly that rank, with every earlier entry strictly larger. -/
theorem minRank_choice (l : List (Nat × Nat)) :
    (∀ j, j < l.length → (minRankAux l 0 (RANK_MAX, USIZE_MAX)).1 ≤ prank l j) ∧
    ((minRankAux l 0 (RANK_MAX, USIZE_MAX)).1 ≠ RANK_MAX →
      (minRankAux l 0 (RANK_MAX, USIZE_MAX)).2 < l.length ∧
      prank l (minRankAux l 0 (RANK_MAX, USIZE_MAX)).2 =
        (minRankAux l 0 (RANK_MAX, USIZE_MAX)).1 ∧
      ∀ j, j < (minRankAux l 0 (RANK_MAX, USIZE_MAX)).2 →
        (minRankAux l 0 (RANK_MAX, USIZE_MAX)).1 < prank l j) := by
  rcases minRankAux_spec l 0 (RANK_MAX, USIZE_MAX) with ⟨heq, hall⟩ | ⟨k, hk, heq, _, hall, hleft⟩
  · rw [heq]
    exact ⟨hall, fun h => absurd rfl h⟩
  · rw [heq]
    exact ⟨hall, fun _ => ⟨by simpa using hk, by simp, by simpa using hleft⟩⟩

/- ----------------------------------------------------------------
   Claim C5 machinery: the implementation's merge step (rank updates
   with the +3 offset before removal) equals the reference step of the
   spec (removal first, +2 offset), pointwise on entries.
   ---------------------------------------------------------------- -/

theorem get_pair_rank_def (c : CoreBPE) (piece : Bytes) (parts : List (Nat × Nat)) (i : Nat) :
    get_pair_rank c piece parts i =
      if i + 3 < parts.length
      then rankOf c (byteSlice piece (pstart parts i) (pstart parts (i + 3)))
      else RANK_MAX := rfl

theorem specPairRank_def (c : CoreBPE) (piece : Bytes) (parts : List (Nat × Nat)) (j : Nat) :
    specPairRank c piece parts j =
      if j + 2 < parts.length
      then rankOf c (byteSlice piece (pstart parts j) (pstart parts (j + 2)))
      else RANK_MAX := rfl

theorem get_pair_rank_setRank (c : CoreBPE) (piece : Bytes) (l : List (Nat × Nat))
    (a : Nat) (r : Rank) (b : Nat) :
    get_pair_rank c piece (setRank l a r) b = get_pair_rank c piece l b := by
  rw [get_pair_rank_def, get_pair_rank_def, length_setRank, pstart_setRank, pstart_setRank]

theorem getElem?_bpeStep (c : CoreBPE) (piece : Bytes) (parts : List (Nat × Nat)) (i k : Nat) :
    (bpeStep c piece parts i)[k]? =
      if k < i then
        (if 0 < i ∧ k = i - 1 ∧ i - 1 < parts.length
         then some (pstart parts (i - 1), get_pair_rank c piece parts (i - 1))
         else parts[k]?)
      else if k = i then
        (if i < parts.length
         then some (pstart parts i, get_pair_rank c piece parts i)
         else none)
      else parts[k + 1]? := by
  by_cases hi : 0 < i
  · have hstep : bpeStep c piece parts i =
        (setRank (setRank parts (i - 1) (get_pair_rank c piece parts (i - 1))) i
          (get_pair_rank c piece parts i)).eraseIdx (i + 1) := by
      rw [bpeStep]
      simp only [if_pos hi]
      rw [get_pair_rank_setRank]
    rw [hstep, List.getElem?_eraseIdx]
    simp only [getElem?_setRank, length_setRank, pstart_setRank]
    rcases Nat.lt_trichotomy k i with hk | hk | hk
    · conv_rhs => rw [if_pos hk]
      rw [if_pos (show k < i + 1 from by omega),
        if_neg (show ¬ (i = k ∧ i < parts.length) from by omega)]
      by_cases h3 : i - 1 = k ∧ i - 1 < parts.length
      · rw [if_pos h3,
          if_pos (show 0 < i ∧ k = i - 1 ∧ i - 1 < parts.length from ⟨hi, h3.1.symm, h3.2⟩)]
      · rw [if_neg h3, if_neg (show ¬ (0 < i ∧ k = i - 1 ∧ i - 1 < parts.length) from by
          rintro ⟨_, e, hb⟩
          exact h3 ⟨e.symm, hb⟩)]
    · subst hk
      conv_rhs => rw [if_neg (show ¬ k < k from by omega), if_pos rfl]
      rw [if_pos (show k < k + 1 from by omega)]
      by_cases h3 : k < parts.length
      · rw [if_pos (show k = k ∧ k < parts.length from ⟨rfl, h3⟩), if_pos h3]
      · rw [if_neg (show ¬ (k = k ∧ k < parts.length) from by tauto),
          if_neg (show ¬ (k - 1 = k ∧ k - 1 < parts.length) from by omega), if_neg h3,
          List.getElem?_eq_none (show parts.length ≤ k from by omega)]
    · conv_rhs => rw [if_neg (show ¬ k < i from by omega), if_neg (show ¬ k = i from by omega)]
      rw [if_neg (show ¬ k < i + 1 from by omega),
        if_neg (show ¬ (i = k + 1 ∧ i < parts.length) from by omega),
        if_neg (show ¬ (i - 1 = k + 1 ∧ i - 1 < parts.length) from by omega)]
  · have hi0 : i = 0 := by omega
    subst hi0
    have hstep : bpeStep c piece parts 0 =
        (setRank parts 0 (get_pair_rank c piece parts 0)).eraseIdx 1 := rfl
    rw [hstep, List.getElem?_eraseIdx]
    simp only [getElem?_setRank, length_setRank, pstart_setRank]
    rcases Nat.eq_zero_or_pos k with hk | hk
    · subst hk
      conv_rhs => rw [if_neg (show ¬ (0:Nat) < 0 from by omega), if_pos rfl]
      rw [if_pos (show (0:Nat) < 1 from by omega)]
      by_cases h3 : 0 < parts.length
      · rw [if_pos (show (0:Nat) = 0 ∧ 0 < parts.length from ⟨rfl, h3⟩), if_pos h3]
      · rw [if_neg (show ¬ ((0:Nat) = 0 ∧ 0 < parts.length) from by tauto), if_neg h3,
          List.getElem?_eq_none (show parts.length ≤ 0 from by omega)]
    · conv_rhs => rw [if_neg (show ¬ k < 0 from by omega),
        if_neg (show ¬ k = 0 from by omega)]
      rw [if_neg (show ¬ k < 0 + 1 from by omega),
        if_neg (show ¬ ((0:Nat) = k + 1 ∧ 0 < parts.length) from by omega)]

theorem getElem?_bpeStepSpec (c : CoreBPE) (piece : Bytes) (parts : List (Nat × Nat)) (i k : Nat) :
    (bpeStepSpec c piece parts i)[k]? =
      if k < i then
        (if 0 < i ∧ k = i - 1 ∧ i - 1 < parts.length
         then some (pstart parts (i - 1), get_pair_rank c piece parts (i - 1))
         else parts[k]?)
      else if k = i then
        (if i < parts.length
         then some (pstart parts i, get_pair_rank c piece parts i)
         else none)
      else parts[k + 1]? := by
  have hlenm : (parts.eraseIdx (i + 1)).length =
      if i + 1 < parts.length then parts.length - 1 else parts.length :=
    List.length_eraseIdx parts (i + 1)
  have hpm : ∀ j, pstart (parts.eraseIdx (i + 1)) j =
      if j < i + 1 then pstart parts j else pstart parts (j + 1) :=
    fun j => pstart_eraseIdx parts (i + 1) j
  have hm : ∀ j, (parts.eraseIdx (i + 1))[j]? =
      if j < i + 1 then parts[j]? else parts[j + 1]? :=
    fun j => List.getElem?_eraseIdx parts (i + 1) j
  have hsp1 : specPairRank c piece (parts.eraseIdx (i + 1)) i =
      get_pair_rank c piece parts i := by
    rw [specPairRank_def, get_pair_rank_def, hlenm, hpm, hpm,
      if_pos (show i < i + 1 from by omega), if_neg (show ¬ i + 2 < i + 1 from by omega)]
    by_cases h1 : i + 1 < parts.length
    · rw [if_pos h1]
      by_cases h2 : i + 3 < parts.length
      · rw [if_pos (show i + 2 < parts.length - 1 from by omega), if_pos h2]
      · rw [if_neg (show ¬ i + 2 < parts.length - 1 from by omega), if_neg h2]
    · rw [if_neg h1, if_neg (show ¬ i + 2 < parts.length from by omega),
        if_neg (show ¬ i + 3 < parts.length from by omega)]
  have hsp2 : 0 < i → specPairRank c piece
      (setRank (parts.eraseIdx (i + 1)) i (specPairRank c piece (parts.eraseIdx (i + 1)) i))
      (i - 1) = get_pair_rank c piece parts (i - 1) := by
    intro hi
    rw [specPairRank_def, get_pair_rank_def, length_setRank, hlenm, pstart_setRank,
      pstart_setRank, hpm, hpm]
    rw [show i - 1 + 2 = i + 1 from by omega, show i - 1 + 3 = i + 2 from by omega,
      if_pos (show i - 1 < i + 1 from by omega), if_neg (show ¬ i + 1 < i + 1 from by omega)]
    by_cases h1 : i + 1 < parts.length
    · rw [if_pos h1]
      by_cases h2 : i + 2 < parts.length
      · rw [if_pos (show i + 1 < parts.length - 1 from by omega), if_pos h2]
      · rw [if_neg (show ¬ i + 1 < parts.length - 1 from by omega), if_neg h2]
    · rw [if_neg h1, if_neg (show ¬ i + 1 < parts.length from by omega),
        if_neg (show ¬ i + 2 < parts.length from by omega)]
  have hcM : ((i < (parts.eraseIdx (i + 1)).length) = (i < parts.length)) := by
    rw [hlenm]
    by_cases h1 : i + 1 < parts.length
    · rw [if_pos h1]
      simp only [eq_iff_iff]
      omega
    · rw [if_neg h1]
  have hcM1 : ((i - 1 < (parts.eraseIdx (i + 1)).length) = (i - 1 < parts.length)) := by
    rw [hlenm]
    by_cases h1 : i + 1 < parts.length
    · rw [if_pos h1]
      simp only [eq_iff_iff]
      omega
    · rw [if_neg h1]
  by_cases hi : 0 < i
  · have hstep : bpeStepSpec c piece parts i =
        setRank (setRank (parts.eraseIdx (i + 1)) i
            (specPairRank c piece (parts.eraseIdx (i + 1)) i)) (i - 1)
          (specPairRank c piece
            (setRank (parts.eraseIdx (i + 1)) i
              (specPairRank c piece (parts.eraseIdx (i + 1)) i)) (i - 1)) := by
      rw [bpeStepSpec]
      simp only [if_pos hi]
    rw [hstep, hsp2 hi]
    simp only [getElem?_setRank, length_setRank, pstart_setRank]
    rw [hsp1, hpm, if_pos (show i - 1 < i + 1 from by omega),
      hpm, if_pos (show i < i + 1 from by omega)]
    simp only [hcM, hcM1]
    rcases Nat.lt_trichotomy k i with hk | hk | hk
    · conv_rhs => rw [if_pos hk]
      rw [if_neg (show ¬ (i = k ∧ i < parts.length) from by omega)]
      by_cases h3 : i - 1 = k ∧ i - 1 < parts.length
      · rw [if_pos h3,
          if_pos (show 0 < i ∧ k = i - 1 ∧ i - 1 < parts.length from ⟨hi, h3.1.symm, h3.2⟩)]
      · rw [if_neg h3, if_neg (show ¬ (0 < i ∧ k = i - 1 ∧ i - 1 < parts.length) from by
          rintro ⟨_, e, hb⟩
          exact h3 ⟨e.symm, hb⟩), hm, if_pos (show k < i + 1 from by omega)]
    · subst hk
      conv_rhs => rw [if_neg (show ¬ k < k from by omega), if_pos rfl]
      rw [if_neg (show ¬ (k - 1 = k ∧ k - 1 < parts.length) from by omega)]
      by_cases h3 : k < parts.length
      · rw [if_pos (show k = k ∧ k < parts.length from ⟨rfl, h3⟩), if_pos h3]
      · rw [if_neg (show ¬ (k = k ∧ k < parts.length) from by tauto), if_neg h3,
          hm, if_pos (show k < k + 1 from by omega),
          List.getElem?_eq_none (show parts.length ≤ k from by omega)]
    · conv_rhs => rw [if_neg (show ¬ k < i from by omega), if_neg (show ¬ k = i from by omega)]
      rw [if_neg (show ¬ (i - 1 = k ∧ i - 1 < parts.length) from by omega),
        if_neg (show ¬ (i = k ∧ i < parts.length) from by omega),
        hm, if_neg (show ¬ k < i + 1 from by omega)]
  · have hi0 : i = 0 := by omega
    subst hi0
    have hstep : bpeStepSpec c piece parts 0 =
        setRank (parts.eraseIdx 1) 0 (specPairRank c piece (parts.eraseIdx 1) 0) := rfl
    rw [hstep]
    simp only [getElem?_setRank, length_setRank, pstart_setRank]
    rw [show ((0:Nat) + 1) = 1 from rfl] at hsp1 hm hpm hcM
    rw [hsp1, hpm, if_pos (show (0:Nat) < 1 from by omega)]
    simp only [hcM]
    rcases Nat.eq_zero_or_pos k with hk | hk
    · subst hk
      conv_rhs => rw [if_neg (show ¬ (0:Nat) < 0 from by omega), if_pos rfl]
      by_cases h3 : 0 < parts.length
      · rw [if_pos (show (0:Nat) = 0 ∧ 0 < parts.length from ⟨rfl, h3⟩), if_pos h3]
      · rw [if_neg (show ¬ ((0:Nat) = 0 ∧ 0 < parts.length) from by tauto), if_neg h3,
          hm, if_pos (show (0:Nat) < 1 from by omega),
          List.getElem?_eq_none (show parts.length ≤ 0 from by omega)]
    · conv_rhs => rw [if_neg (show ¬ k < 0 from by omega),
        if_neg (show ¬ k = 0 from by omega)]
      rw [if_neg (show ¬ ((0:Nat) = k ∧ 0 < parts.length) from by omega),
        hm, if_neg (show ¬ k < 1 from by omega)]

/-- The implementation's merge step equals the reference step of spec.md
    section 4.3 on every parts list and index. -/
theorem bpeStep_eq_spec (c : CoreBPE) (piece : Bytes) (parts : List (Nat × Nat)) (i : Nat) :
    bpeStep c piece parts i = bpeStepSpec c piece parts i := by
  apply List.ext_getElem?
  intro k
  rw [getElem?_bpeStep, getElem?_bpeStepSpec]

theorem bpeLoop_eq_spec (c : CoreBPE) (piece : Bytes) :
    ∀ fuel mr parts, bpeLoop c piece fuel mr parts = bpeLoopSpec c piece fuel mr parts := by
  intro fuel
  induction fuel with
  | zero => intro mr parts; rfl
  | succ n ih =>
    intro mr parts
    rw [bpeLoop, bpeLoopSpec]
    by_cases h : mr.1 = RANK_MAX
    · rw [if_pos h, if_pos h]
    · rw [if_neg h, if_neg h]
      simp only [bpeStep_eq_spec]
      exact ih _ _

/- ----------------------------------------------------------------
   The merge-loop invariant: entry starts are strictly increasing from 0
   to the piece length, every window slice is a merge-table key, and every
   stored rank is the table rank of its two-entry-wide slice (claims C1/C2).
   ---------------------------------------------------------------- -/

structure MergeInv (c : CoreBPE) (piece : Bytes) (parts : List (Nat × Nat)) : Prop where
  len2 : 2 ≤ parts.length
  start0 : pstart parts 0 = 0
  startLast : pstart parts (parts.length - 1) = piece.length
  mono : ∀ j, j + 1 < parts.length → pstart parts j < pstart parts (j + 1)
  sit : ∀ j, j + 1 < parts.length →
    (List.lookup (byteSlice piece (pstart parts j) (pstart parts (j + 1))) c.encoder).isSome
  rc : ∀ j, j < parts.length →
    prank parts j = (if j + 2 < parts.length
      then rankOf c (byteSlice piece (pstart parts j) (pstart parts (j + 2)))
      else RANK_MAX)

theorem minRankAux_append (l : List (Nat × Nat)) (x : Nat × Nat) :
    ∀ (idx : Nat) (acc : Nat × Nat),
      minRankAux (l ++ [x]) idx acc =
        (if x.2 < (minRankAux l idx acc).1 then (x.2, idx + l.length)
         else minRankAux l idx acc) := by
  induction l with
  | nil => intro idx acc; simp [minRankAux]
  | cons p t ih =>
    intro idx acc
    rw [List.cons_append, minRankAux, minRankAux, ih]
    simp only [List.length_cons]
    congr 2
    omega

theorem minRankAux_fst_le (l : List (Nat × Nat)) :
    ∀ (idx : Nat) (acc : Nat × Nat), (minRankAux l idx acc).1 ≤ acc.1 := by
  induction l with
  | nil => intro idx acc; exact Nat.le_refl _
  | cons p t ih =>
    intro idx acc
    rw [minRankAux]
    by_cases hp : p.2 < acc.1
    · rw [if_pos hp]
      exact Nat.le_trans (ih _ _) (Nat.le_of_lt hp)
    · rw [if_neg hp]
      exact ih _ _

theorem byte_pair_merge_as_loop (c : CoreBPE) (piece : Bytes) :
    byte_pair_merge c piece =
      bpeLoop c piece piece.length
        (minRankAux (initParts c piece ++ [(piece.length - 1, RANK_MAX),
          (piece.length, RANK_MAX)]).dropLast 0 (RANK_MAX, USIZE_MAX))
        (initParts c piece ++ [(piece.length - 1, RANK_MAX), (piece.length, RANK_MAX)]) := by
  rw [byte_pair_merge]
  have hsplit : initParts c piece ++ [(piece.length - 1, RANK_MAX), (piece.length, RANK_MAX)] =
      (initParts c piece ++ [(piece.length - 1, RANK_MAX)]) ++ [(piece.length, RANK_MAX)] := by
    simp
  rw [hsplit, List.dropLast_concat, minRankAux_append]
  rw [if_neg (show ¬ (piece.length - 1, RANK_MAX).2 < (minRankAux (initParts c piece) 0
    (RANK_MAX, USIZE_MAX)).1 from by
      have hle : (minRankAux (initParts c piece) 0 (RANK_MAX, USIZE_MAX)).1 ≤ RANK_MAX :=
        minRankAux_fst_le _ 0 (RANK_MAX, USIZE_MAX)
      simp only []
      omega)]

theorem initParts_length (c : CoreBPE) (piece : Bytes) :
    (initParts c piece).length = piece.length - 1 := by
  simp [initParts]

theorem pstart_init (c : CoreBPE) (piece : Bytes) (hn : 1 ≤ piece.length) (j : Nat)
    (hj : j ≤ piece.length) :
    pstart (initParts c piece ++ [(piece.length - 1, RANK_MAX), (piece.length, RANK_MAX)]) j
      = j := by
  rw [pstart, getD_eq_getElem?, List.getElem?_append]
  by_cases h : j < (initParts c piece).length
  · rw [if_pos h]
    rw [initParts_length] at h
    simp [initParts, List.getElem?_map, List.getElem?_range h]
  · rw [if_neg h, initParts_length]
    rw [initParts_length] at h
    have : j = piece.length - 1 ∨ j = piece.length := by omega
    rcases this with rfl | rfl
    · rw [show piece.length - 1 - (piece.length - 1) = 0 from by omega]
      simp
    · rw [show piece.length - (piece.length - 1) = 1 from by omega]
      simp

theorem prank_init (c : CoreBPE) (piece : Bytes) (hn : 1 ≤ piece.length) (j : Nat)
    (hj : j ≤ piece.length) :
    prank (initParts c piece ++ [(piece.length - 1, RANK_MAX), (piece.length, RANK_MAX)]) j
      = (if j < piece.length - 1 then rankOf c (byteSlice piece j (j + 2)) else RANK_MAX) := by
  rw [prank, getD_eq_getElem?, List.getElem?_append]
  by_cases h : j < (initParts c piece).length
  · rw [if_pos h]
    rw [initParts_length] at h
    rw [if_pos h]
    simp [initParts, List.getElem?_map, List.getElem?_range h]
  · rw [if_neg h, initParts_length]
    rw [initParts_length] at h
    rw [if_neg (show ¬ j < piece.length - 1 from by omega)]
    have : j = piece.length - 1 ∨ j = piece.length := by omega
    rcases this with rfl | rfl
    · rw [show piece.length - 1 - (piece.length - 1) = 0 from by omega]
      simp
    · rw [show piece.length - (piece.length - 1) = 1 from by omega]
      simp

theorem byteSlice_singleton (piece : Bytes) (j : Nat) (h : j < piece.length) :
    byteSlice piece j (j + 1) = [piece.getD j 0] := by
  rw [byteSlice, show j + 1 - j = 1 from by omega, List.drop_eq_getElem_cons h,
    List.getD_eq_getElem?_getD, List.getElem?_eq_getElem h]
  rfl

theorem mergeInv_init (c : CoreBPE) (piece : Bytes) (hn : 1 ≤ piece.length)
    (hcov : ∀ b ∈ piece, (List.lookup [b] c.encoder).isSome) :
    MergeInv c piece
      (initParts c piece ++ [(piece.length - 1, RANK_MAX), (piece.length, RANK_MAX)]) := by
  have hL : (initParts c piece ++ [(piece.length - 1, RANK_MAX),
      (piece.length, RANK_MAX)]).length = piece.length + 1 := by
    simp [initParts_length]
    omega
  refine ⟨?_, ?_, ?_, ?_, ?_, ?_⟩
  · rw [hL]; omega
  · exact pstart_init c piece hn 0 (by omega)
  · rw [hL, show piece.length + 1 - 1 = piece.length from by omega]
    exact pstart_init c piece hn piece.length (by omega)
  · intro j hj
    rw [hL] at hj
    rw [pstart_init c piece hn j (by omega), pstart_init c piece hn (j + 1) (by omega)]
    omega
  · intro j hj
    rw [hL] at hj
    rw [pstart_init c piece hn j (by omega), pstart_init c piece hn (j + 1) (by omega),
      byteSlice_singleton piece j (by omega)]
    have hjm : piece.getD j 0 ∈ piece := by
      rw [List.getD_eq_getElem?_getD, List.getElem?_eq_getElem (show j < piece.length from
        by omega)]
      exact List.getElem_mem _
    exact hcov _ hjm
  · intro j hj
    rw [hL] at hj
    rw [prank_init c piece hn j (by omega), hL]
    by_cases h2 : j + 2 < piece.length + 1
    · rw [if_pos (show j < piece.length - 1 from by omega), if_pos h2,
        pstart_init c piece hn j (by omega), pstart_init c piece hn (j + 2) (by omega)]
    · rw [if_neg (show ¬ j < piece.length - 1 from by omega), if_neg h2]

theorem prank_dropLast (l : List (Nat × Nat)) (j : Nat) (hj : j < l.length - 1) :
    prank l.dropLast j = prank l j := by
  rw [prank, prank, getD_eq_getElem?, getD_eq_getElem?, List.getElem?_dropLast, if_pos hj]

theorem rankOf_isSome (c : CoreBPE) (k : Bytes) (h : rankOf c k ≠ RANK_MAX) :
    (List.lookup k c.encoder).isSome := by
  rw [rankOf] at h
  cases hl : List.lookup k c.encoder with
  | none => rw [hl] at h; simp at h
  | some v => simp

theorem bpeStep_length (c : CoreBPE) (piece : Bytes) (parts : List (Nat × Nat)) (i : Nat)
    (h : i + 1 < parts.length) :
    (bpeStep c piece parts i).length = parts.length - 1 := by
  rw [bpeStep]
  by_cases hi : 0 < i
  · simp only [if_pos hi]
    rw [List.length_eraseIdx, length_setRank, length_setRank, if_pos h]
  · simp only [if_neg hi]
    rw [List.length_eraseIdx, length_setRank, if_pos h]

theorem mergeInv_step_aux (c : CoreBPE) (piece : Bytes) (parts : List (Nat × Nat))
    (inv : MergeInv c piece parts) (r i : Nat)
    (hmr : minRankAux parts.dropLast 0 (RANK_MAX, USIZE_MAX) = (r, i))
    (hne : r ≠ RANK_MAX) :
    MergeInv c piece (bpeStep c piece parts i) := by
  obtain ⟨hall, hchoice⟩ := minRank_choice parts.dropLast
  have hne0 : (minRankAux parts.dropLast 0 (RANK_MAX, USIZE_MAX)).1 ≠ RANK_MAX := by
    rw [hmr]
    exact hne
  obtain ⟨hilt0, hrank0, hleft0⟩ := hchoice hne0
  have hDL : parts.dropLast.length = parts.length - 1 := List.length_dropLast parts
  have hilt : i < parts.length - 1 := by
    rw [hmr, hDL] at hilt0
    exact hilt0
  have hrank : prank parts.dropLast i = r := by
    rw [hmr] at hrank0
    exact hrank0
  have hri : prank parts i = r := by
    rw [← prank_dropLast parts i hilt]
    exact hrank
  have hlen3 : i + 2 < parts.length := by
    by_contra hcon
    have h2 := inv.rc i (by omega)
    rw [if_neg hcon] at h2
    omega
  have hrio : rankOf c (byteSlice piece (pstart parts i) (pstart parts (i + 2))) = r := by
    have h2 := inv.rc i (by omega)
    rw [if_pos hlen3] at h2
    rw [← h2]
    exact hri
  have hPlen : (bpeStep c piece parts i).length = parts.length - 1 :=
    bpeStep_length c piece parts i (by omega)
  have hPstart : ∀ j, pstart (bpeStep c piece parts i) j =
      if j ≤ i then pstart parts j else pstart parts (j + 1) := by
    intro j
    rw [pstart, getD_eq_getElem?, getElem?_bpeStep]
    rcases Nat.lt_trichotomy j i with hj | hj | hj
    · rw [if_pos hj, if_pos (show j ≤ i from by omega)]
      by_cases hc : 0 < i ∧ j = i - 1 ∧ i - 1 < parts.length
      · rw [if_pos hc]
        obtain ⟨-, hji, -⟩ := hc
        rw [hji]
        rfl
      · rw [if_neg hc, pstart, getD_eq_getElem?]
    · rw [if_neg (show ¬ j < i from by omega), if_pos hj,
        if_pos (show i < parts.length from by omega), if_pos (show j ≤ i from by omega), hj]
      rfl
    · rw [if_neg (show ¬ j < i from by omega), if_neg (show ¬ j = i from by omega),
        if_neg (show ¬ j ≤ i from by omega), pstart, getD_eq_getElem?]
  have hPrank : ∀ j, prank (bpeStep c piece parts i) j =
      if j = i then get_pair_rank c piece parts i
      else if 0 < i ∧ j = i - 1 then get_pair_rank c piece parts (i - 1)
      else if j < i then prank parts j
      else prank parts (j + 1) := by
    intro j
    rw [prank, getD_eq_getElem?, getElem?_bpeStep]
    rcases Nat.lt_trichotomy j i with hj | hj | hj
    · rw [if_pos hj, if_neg (show ¬ j = i from by omega)]
      by_cases hc : 0 < i ∧ j = i - 1
      · rw [if_pos (show 0 < i ∧ j = i - 1 ∧ i - 1 < parts.length from
          ⟨hc.1, hc.2, by omega⟩), if_pos hc]
        rfl
      · rw [if_neg (show ¬ (0 < i ∧ j = i - 1 ∧ i - 1 < parts.length) from by
          rintro ⟨h1, h2, -⟩
          exact hc ⟨h1, h2⟩), if_neg hc, if_pos hj, prank, getD_eq_getElem?]
    · rw [if_neg (show ¬ j < i from by omega), if_pos hj,
        if_pos (show i < parts.length from by omega), if_pos hj]
      rfl
    · rw [if_neg (show ¬ j < i from by omega), if_neg (show ¬ j = i from by omega),
        if_neg (show ¬ j = i from by omega), if_neg (show ¬ (0 < i ∧ j = i - 1) from by
          omega), if_neg (show ¬ j < i from by omega), prank, getD_eq_getElem?]
  refine ⟨?_, ?_, ?_, ?_, ?_, ?_⟩
  · rw [hPlen]
    omega
  · rw [hPstart 0, if_pos (show 0 ≤ i from by omega)]
    exact inv.start0
  · rw [hPlen, hPstart (parts.length - 1 - 1),
      if_neg (show ¬ parts.length - 1 - 1 ≤ i from by omega),
      show parts.length - 1 - 1 + 1 = parts.length - 1 from by omega]
    exact inv.startLast
  · intro j hj
    rw [hPlen] at hj
    rw [hPstart j, hPstart (j + 1)]
    rcases Nat.lt_trichotomy j i with h | h | h
    · rw [if_pos (show j ≤ i from by omega), if_pos (show j + 1 ≤ i from by omega)]
      exact inv.mono j (by omega)
    · rw [if_pos (show j ≤ i from by omega), if_neg (show ¬ j + 1 ≤ i from by omega)]
      exact Nat.lt_trans (inv.mono j (by omega)) (inv.mono (j + 1) (by omega))
    · rw [if_neg (show ¬ j ≤ i from by omega), if_neg (show ¬ j + 1 ≤ i from by omega)]
      exact inv.mono (j + 1) (by omega)
  · intro j hj
    rw [hPlen] at hj
    rw [hPstart j, hPstart (j + 1)]
    rcases Nat.lt_trichotomy j i with h | h | h
    · rw [if_pos (show j ≤ i from by omega), if_pos (show j + 1 ≤ i from by omega)]
      exact inv.sit j (by omega)
    · rw [if_pos (show j ≤ i from by omega), if_neg (show ¬ j + 1 ≤ i from by omega), h,
        show i + 1 + 1 = i + 2 from rfl]
      exact rankOf_isSome c _ (by rw [hrio]; exact hne)
    · rw [if_neg (show ¬ j ≤ i from by omega), if_neg (show ¬ j + 1 ≤ i from by omega)]
      exact inv.sit (j + 1) (by omega)
  · intro j hj
    rw [hPlen] at hj
    rw [hPrank j, hPlen, hPstart j, hPstart (j + 2)]
    by_cases hji : j = i
    · rw [if_pos hji, get_pair_rank_def, hji,
        if_pos (show i ≤ i from by omega), if_neg (show ¬ i + 2 ≤ i from by omega)]
      by_cases hg : i + 3 < parts.length
      · rw [if_pos hg, if_pos (show i + 2 < parts.length - 1 from by omega)]
      · rw [if_neg hg, if_neg (show ¬ i + 2 < parts.length - 1 from by omega)]
    · by_cases hjm : 0 < i ∧ j = i - 1
      · rw [if_neg hji, if_pos hjm, get_pair_rank_def]
        obtain ⟨hi0, hj1⟩ := hjm
        rw [if_pos (show j ≤ i from by omega), if_neg (show ¬ j + 2 ≤ i from by omega),
          show i - 1 + 3 = i + 2 from by omega, if_pos hlen3,
          if_pos (show j + 2 < parts.length - 1 from by omega), hj1,
          show i - 1 + 2 + 1 = i + 2 from by omega]
      · rw [if_neg hji, if_neg hjm]
        by_cases hjl : j < i
        · rw [if_pos hjl, if_pos (show j ≤ i from by omega),
            if_pos (show j + 2 ≤ i from by omega)]
          have h2 := inv.rc j (by omega)
          rw [h2, if_pos (show j + 2 < parts.length from by omega),
            if_pos (show j + 2 < parts.length - 1 from by omega)]
        · rw [if_neg hjl, if_neg (show ¬ j ≤ i from by omega),
            if_neg (show ¬ j + 2 ≤ i from by omega)]
          have h2 := inv.rc (j + 1) (by omega)
          rw [h2]
          by_cases hg : j + 1 + 2 < parts.length
          · rw [if_pos hg, if_pos (show j + 2 < parts.length - 1 from by omega)]
          · rw [if_neg hg, if_neg (show ¬ j + 2 < parts.length - 1 from by omega)]

theorem mergeInv_step (c : CoreBPE) (piece : Bytes) (parts : List (Nat × Nat))
    (inv : MergeInv c piece parts)
    (hne : (minRankAux parts.dropLast 0 (RANK_MAX, USIZE_MAX)).1 ≠ RANK_MAX) :
    MergeInv c piece
      (bpeStep c piece parts (minRankAux parts.dropLast 0 (RANK_MAX, USIZE_MAX)).2) := by
  rcases hmr : minRankAux parts.dropLast 0 (RANK_MAX, USIZE_MAX) with ⟨r, i⟩
  rw [hmr] at hne
  exact mergeInv_step_aux c piece parts inv r i hmr hne

theorem bpeLoop_inv (c : CoreBPE) (piece : Bytes) :
    ∀ (fuel : Nat) (parts : List (Nat × Nat)), MergeInv c piece parts →
      MergeInv c piece
        (bpeLoop c piece fuel (minRankAux parts.dropLast 0 (RANK_MAX, USIZE_MAX)) parts) := by
  intro fuel
  induction fuel with
  | zero => intro parts h; exact h
  | succ n ih =>
    intro parts h
    rw [bpeLoop]
    by_cases hm : (minRankAux parts.dropLast 0 (RANK_MAX, USIZE_MAX)).1 = RANK_MAX
    · rw [if_pos hm]
      exact h
    · rw [if_neg hm]
      exact ih _ (mergeInv_step c piece parts h hm)

theorem byte_pair_merge_inv (c : CoreBPE) (piece : Bytes) (hn : 1 ≤ piece.length)
    (hcov : ∀ b ∈ piece, (List.lookup [b] c.encoder).isSome) :
    MergeInv c piece (byte_pair_merge c piece) := by
  rw [byte_pair_merge_as_loop]
  exact bpeLoop_inv c piece piece.length _ (mergeInv_init c piece hn hcov)

/- ----------------------------------------------------------------
   Output of the merge loop: the window slices concatenate back to the
   piece and every slice is a merge-table key.
   ---------------------------------------------------------------- -/

theorem mergeSlices_cons (piece : Bytes) (p q : Nat × Nat) (t : List (Nat × Nat)) :
    mergeSlices piece (p :: q :: t) = byteSlice piece p.1 q.1 :: mergeSlices piece (q :: t) :=
  rfl

theorem byteSlice_append (piece : Bytes) (a b e : Nat) (h1 : a ≤ b) (h2 : b ≤ e) :
    byteSlice piece a b ++ byteSlice piece b e = byteSlice piece a e := by
  rw [byteSlice, byteSlice, byteSlice]
  rw [show piece.drop b = (piece.drop a).drop (b - a) from by
    rw [List.drop_drop]
    congr 1
    omega]
  rw [show e - a = (b - a) + (e - b) from by omega, List.take_add]

theorem mergeSlices_flatten_aux (piece : Bytes) :
    ∀ (l : List (Nat × Nat)) (p : Nat × Nat),
      (∀ j, j + 1 < (p :: l).length → pstart (p :: l) j ≤ pstart (p :: l) (j + 1)) →
      (mergeSlices piece (p :: l)).flatten =
        byteSlice piece p.1 (pstart (p :: l) ((p :: l).length - 1)) ∧
      p.1 ≤ pstart (p :: l) ((p :: l).length - 1) := by
  intro l
  induction l with
  | nil =>
    intro p _
    refine ⟨?_, Nat.le_refl _⟩
    simp [mergeSlices, byteSlice, pstart]
  | cons q t ih =>
    intro p hmono
    have hmono2 : ∀ j, j + 1 < (q :: t).length → pstart (q :: t) j ≤ pstart (q :: t) (j + 1) := by
      intro j hj
      have := hmono (j + 1) (by simp at hj ⊢; omega)
      simpa [pstart, List.getD_cons_succ] using this
    have hm0 : p.1 ≤ q.1 := by
      have := hmono 0 (by simp)
      simpa [pstart] using this
    obtain ⟨ihf, ihle⟩ := ih q hmono2
    have hlast : pstart (p :: q :: t) ((p :: q :: t).length - 1) =
        pstart (q :: t) ((q :: t).length - 1) := by
      rw [pstart, pstart, show (p :: q :: t).length - 1 = ((q :: t).length - 1) + 1 from by
        simp, List.getD_cons_succ]
    refine ⟨?_, ?_⟩
    · rw [mergeSlices_cons, List.flatten_cons, ihf, hlast]
      exact byteSlice_append piece p.1 q.1 _ hm0 ihle
    · rw [hlast]
      exact Nat.le_trans hm0 ihle

theorem mergeInv_flatten (c : CoreBPE) (piece : Bytes) (parts : List (Nat × Nat))
    (inv : MergeInv c piece parts) :
    (mergeSlices piece parts).flatten = piece := by
  cases parts with
  | nil =>
    have := inv.len2
    simp at this
  | cons p l =>
    have hmono : ∀ j, j + 1 < (p :: l).length → pstart (p :: l) j ≤ pstart (p :: l) (j + 1) :=
      fun j hj => Nat.le_of_lt (inv.mono j hj)
    obtain ⟨hf, -⟩ := mergeSlices_flatten_aux piece l p hmono
    rw [hf]
    have h0 : p.1 = 0 := by
      have := inv.start0
      rwa [pstart, List.getD_cons_zero] at this
    rw [h0, inv.startLast, byteSlice]
    simp

theorem mergeSlices_mem (piece : Bytes) :
    ∀ (parts : List (Nat × Nat)) (x : Bytes), x ∈ mergeSlices piece parts →
      ∃ j, j + 1 < parts.length ∧ x = byteSlice piece (pstart parts j) (pstart parts (j + 1)) := by
  intro parts
  induction parts with
  | nil => intro x hx; simp [mergeSlices] at hx
  | cons p t ih =>
    cases t with
    | nil => intro x hx; simp [mergeSlices] at hx
    | cons q t2 =>
      intro x hx
      rw [mergeSlices_cons] at hx
      rcases List.mem_cons.1 hx with h | h
      · exact ⟨0, by simp, by simpa [pstart] using h⟩
      · obtain ⟨j, hj, rfl⟩ := ih x h
        refine ⟨j + 1, by simp at hj ⊢; omega, ?_⟩
        simp [pstart, List.getD_cons_succ]

/-- `byte_pair_encode` succeeds on a nonempty piece whose single bytes are
    merge-table keys, and its tokens are the table images of slices that
    concatenate back to the piece. -/
theorem byte_pair_encode_sound (c : CoreBPE) (piece : Bytes) (hne : piece ≠ [])
    (hcov : ∀ b ∈ piece, (List.lookup [b] c.encoder).isSome) :
    ∃ ts bs, byte_pair_encode c piece = some ts ∧ bs.flatten = piece ∧
      List.Forall₂ (fun b t => List.lookup b c.encoder = some t) bs ts := by
  by_cases h1 : piece.length = 1
  · obtain ⟨b, rfl⟩ := List.length_eq_one.1 h1
    obtain ⟨t, ht⟩ := Option.isSome_iff_exists.1 (hcov b (by simp))
    refine ⟨[t], [[b]], ?_, by simp, ?_⟩
    · simp [byte_pair_encode, ht]
    · simp [List.forall₂_cons, ht]
  · have hn : 1 ≤ piece.length := List.length_pos.2 hne
    have inv := byte_pair_merge_inv c piece hn hcov
    have hsl : ∀ x ∈ mergeSlices piece (byte_pair_merge c piece),
        (List.lookup x c.encoder).isSome := by
      intro x hx
      obtain ⟨j, hj, rfl⟩ := mergeSlices_mem piece _ x hx
      exact inv.sit j hj
    obtain ⟨ts, hmapM, hfa⟩ := mapM_some_of_forall _ _ hsl
    refine ⟨ts, mergeSlices piece (byte_pair_merge c piece), ?_, ?_, hfa⟩
    · rw [byte_pair_encode, if_neg h1]
      exact hmapM
    · exact mergeInv_flatten c piece _ inv

/-- The per-piece body of `encode_ordinary` succeeds with tokens that are
    table images of slices concatenating to the piece. -/
theorem encodePiece_sound (c : CoreBPE) (piece : Bytes) (hne : piece ≠ [])
    (hcov : ∀ b ∈ piece, (List.lookup [b] c.encoder).isSome) :
    ∃ ts bs, encodePiece c piece = some ts ∧ bs.flatten = piece ∧
      List.Forall₂ (fun b t => List.lookup b c.encoder = some t) bs ts := by
  rw [encodePiece]
  cases hl : List.lookup piece c.encoder with
  | some t =>
    refine ⟨[t], [piece], rfl, by simp, ?_⟩
    simp [List.forall₂_cons, hl]
  | none =>
    obtain ⟨ts, bs, he, hf, hfa⟩ := byte_pair_encode_sound c piece hne hcov
    exact ⟨ts, bs, he, hf, hfa⟩

theorem encodeOrdinaryGo_sound (c : CoreBPE) :
    ∀ (pieces : List Bytes) (acc : List Token),
      (∀ p ∈ pieces, p ≠ [] ∧ ∀ b ∈ p, (List.lookup [b] c.encoder).isSome) →
      ∃ ts bs, encodeOrdinaryGo c pieces acc = some (acc ++ ts) ∧
        bs.flatten = pieces.flatten ∧
        List.Forall₂ (fun b t => List.lookup b c.encoder = some t) bs ts := by
  intro pieces
  induction pieces with
  | nil =>
    intro acc _
    exact ⟨[], [], by simp [encodeOrdinaryGo], by simp, List.Forall₂.nil⟩
  | cons p rest ih =>
    intro acc h
    obtain ⟨hne, hcov⟩ := h p (List.mem_cons_self _ _)
    obtain ⟨ts1, bs1, he1, hf1, hfa1⟩ := encodePiece_sound c p hne hcov
    obtain ⟨ts2, bs2, he2, hf2, hfa2⟩ := ih (acc ++ ts1)
      (fun q hq => h q (List.mem_cons_of_mem _ hq))
    refine ⟨ts1 ++ ts2, bs1 ++ bs2, ?_, ?_, List.rel_append hfa1 hfa2⟩
    · rw [encodeOrdinaryGo, he1]
      show encodeOrdinaryGo c rest (acc ++ ts1) = _
      rw [he2, List.append_assoc]
    · simp [List.flatten_append, hf1, hf2]

/- ----------------------------------------------------------------
   Decode side: with pairwise-distinct ranks, every token produced from a
   table key decodes back to that key.
   ---------------------------------------------------------------- -/

theorem decode_bytes_forall (c : CoreBPE) (hdr : DistinctRanks c.encoder) :
    ∀ (bs : List Bytes) (ts : List Token),
      List.Forall₂ (fun b t => List.lookup b c.encoder = some t) bs ts →
      decode_bytes c ts = .ok bs.flatten := by
  intro bs ts h
  induction h with
  | nil => rfl
  | @cons b t bs2 ts2 hbt htail ihr =>
    have hmem : (b, t) ∈ c.encoder := mem_of_lookup hbt
    have hmemD : (t, b) ∈ c.decoder := by
      rw [CoreBPE.decoder]
      exact List.mem_map.2 ⟨(b, t), hmem, rfl⟩
    obtain ⟨b2, hb2⟩ := Option.isSome_iff_exists.1 (lookup_isSome_of_mem hmemD)
    have hmem2 : (t, b2) ∈ c.decoder := mem_of_lookup hb2
    have hmem2e : (b2, t) ∈ c.encoder := by
      rw [CoreBPE.decoder] at hmem2
      obtain ⟨⟨x, y⟩, hxy, heq⟩ := List.mem_map.1 hmem2
      simp only [Prod.mk.injEq] at heq
      obtain ⟨rfl, rfl⟩ := heq
      exact hxy
    have hbb : b2 = b := hdr (b2, t) hmem2e (b, t) hmem rfl
    subst hbb
    rw [decode_bytes, hb2]
    show Except.map (fun rest => b2 ++ rest) (decode_bytes c ts2) = _
    rw [ihr]
    rfl

/- ----------------------------------------------------------------
   Bytes of a valid UTF-8 string are byte values (< 256).
   ---------------------------------------------------------------- -/

set_option maxHeartbeats 2000000 in
theorem Utf8Valid_lt : ∀ l : List Nat, Utf8Valid l = true → ∀ b ∈ l, b < 256 := by
  intro l
  induction l using Utf8Valid.induct <;>
    (intro hv
     rw [Utf8Valid.eq_def] at hv
     dsimp only at hv
     (try split_ifs at hv) <;> simp_all [contB] <;> try omega)

/- ----------------------------------------------------------------
   Concrete encodings used as witnesses and counterexamples.
   ---------------------------------------------------------------- -/

/-- The 256 single-byte entries, each byte mapped to itself as rank. -/
def byteTable : List (Bytes × Token) := (List.range 256).map (fun b => ([b], b))

/-- An encoding whose pre-tokenizer regex matches nothing (e.g. the pattern
    `x` on the input `a`): `find_iter` yields no matches, so `split`
    returns no pieces. -/
def cNoMatch : CoreBPE :=
  { encoder := byteTable, specialEncoder := [], split := fun _ => [], specialRegex := none }

/-- An encoding whose pre-tokenizer regex matches any nonempty input whole
    (e.g. the pattern `(?s:.+)`). -/
def cIdSplit : CoreBPE :=
  { encoder := byteTable, specialEncoder := [],
    split := fun t => if t = [] then [] else [t], specialRegex := none }

/-- A toy table in which the two adjacent pairs of `abc` tie at rank 10. -/
def tieTable : CoreBPE :=
  { encoder := [([97], 0), ([98], 1), ([99], 2), ([97, 98], 10), ([98, 99], 10)],
    specialEncoder := [], split := fun t => [t], specialRegex := none }

/-- A toy table in which `abc` is a key (rank 7) but neither of its pairs
    is, so the merge algorithm cannot reach it. -/
def fastTable : CoreBPE :=
  { encoder := [([97], 0), ([98], 1), ([99], 2), ([97, 98, 99], 7)],
    specialEncoder := [], split := fun t => [t], specialRegex := none }

/-- The bytes of `<|endoftext|>`. -/
def eotBytes : Bytes := [60, 124, 101, 110, 100, 111, 102, 116, 101, 120, 116, 124, 62]

/-- An encoding with one ordinary token and the `<|endoftext|>` special
    token; its special regex matches the 13-byte span at offset 0. -/
def cSpecial : CoreBPE :=
  { encoder := [([104], 5)], specialEncoder := [(eotBytes, 100257)],
    split := fun t => [t], specialRegex := some (fun _ => [(0, 13)]) }

theorem lookup_range_map_ge : ∀ (n b : Nat), n ≤ b →
    List.lookup [b] ((List.range n).map (fun i => (([i] : Bytes), i))) = none := by
  intro n
  induction n with
  | zero => intro b _; rfl
  | succ m ih =>
    intro b hb
    rw [List.range_succ, List.map_append, lookup_append, ih b (by omega)]
    have hne : (([b] : Bytes) == [m]) = false := by
      rw [beq_eq_false_iff_ne]
      simp
      omega
    simp only [List.map_cons, List.map_nil]
    rw [List.lookup_cons]
    rw [hne]
    rfl

theorem lookup_range_map_lt : ∀ (n b : Nat), b < n →
    List.lookup [b] ((List.range n).map (fun i => (([i] : Bytes), i))) = some b := by
  intro n
  induction n with
  | zero => intro b hb; omega
  | succ m ih =>
    intro b hb
    rw [List.range_succ, List.map_append, lookup_append]
    by_cases h : b < m
    · rw [ih b h]
    · have hbm : b = m := by omega
      subst hbm
      rw [lookup_range_map_ge b b (Nat.le_refl b)]
      simp only [List.map_cons, List.map_nil]
      rw [List.lookup_cons]
      rw [show (([b] : Bytes) == [b]) = true from by simp]

theorem byteTable_cov : ∀ b, b < 256 → (List.lookup [b] byteTable).isSome := by
  intro b hb
  rw [byteTable, lookup_range_map_lt 256 b hb]
  rfl

theorem distinctRanks_byteTable : DistinctRanks byteTable := by
  intro p hp q hq h
  simp only [byteTable, List.mem_map, List.mem_range] at hp hq
  obtain ⟨a, -, rfl⟩ := hp
  obtain ⟨a2, -, rfl⟩ := hq
  have h2 : a = a2 := by simpa using h
  subst h2
  rfl

/- ----------------------------------------------------------------
   Claim theorems.
   ---------------------------------------------------------------- -/

/-- C2: for every nonempty byte sequence `p` all of whose single bytes
    appear as merge-table keys, `byte_pair_encode p` succeeds and its tokens
    are the table images of key byte sequences whose concatenation is `p`. -/
theorem claim_C2_merge_concat (c : CoreBPE) (p : Bytes) (hne : p ≠ [])
    (hcov : ∀ b ∈ p, (List.lookup [b] c.encoder).isSome) :
    ∃ ts bs, byte_pair_encode c p = some ts ∧ bs.flatten = p ∧
      List.Forall₂ (fun kb t => List.lookup kb c.encoder = some t) bs ts :=
  byte_pair_encode_sound c p hne hcov

/-- Witness for C2 at the concrete table `tieTable` and piece `ab`. -/
theorem claim_C2_witness :
    ∃ ts bs, byte_pair_encode tieTable [97, 98] = some ts ∧ bs.flatten = [97, 98] ∧
      List.Forall₂ (fun kb t => List.lookup kb tieTable.encoder = some t) bs ts :=
  claim_C2_merge_concat tieTable [97, 98] (by decide) (by decide)

/-- C5: `byte_pair_merge` produces the same final parts list as the
    reference algorithm of spec.md section 4.3, which removes entry `i+1`
    first and then recomputes the ranks at `i` and `i-1` with the
    two-entries-ahead offset. -/
theorem claim_C5_merge_matches_reference (c : CoreBPE) (piece : Bytes) :
    byte_pair_merge c piece = byte_pair_merge_spec c piece := by
  rw [byte_pair_merge, byte_pair_merge_spec]
  exact bpeLoop_eq_spec c piece _ _ _

/-- C4: the scan selecting the entry to merge returns a rank that is at most
    every scanned rank, and when it is not the sentinel it names an in-bounds
    entry holding exactly that rank with every earlier entry strictly larger
    (leftmost tie-break); concretely, on the tie table where the pairs `ab`
    and `bc` of `abc` share rank 10, the leftmost pair is merged first,
    giving tokens `[ab, c]` rather than `[a, bc]`. -/
theorem claim_C4_min_rank_leftmost :
    (∀ entries : List (Nat × Nat),
      (∀ j, j < entries.length →
        (minRankAux entries 0 (RANK_MAX, USIZE_MAX)).1 ≤ prank entries j) ∧
      ((minRankAux entries 0 (RANK_MAX, USIZE_MAX)).1 ≠ RANK_MAX →
        (minRankAux entries 0 (RANK_MAX, USIZE_MAX)).2 < entries.length ∧
        prank entries (minRankAux entries 0 (RANK_MAX, USIZE_MAX)).2 =
          (minRankAux entries 0 (RANK_MAX, USIZE_MAX)).1 ∧
        ∀ j, j < (minRankAux entries 0 (RANK_MAX, USIZE_MAX)).2 →
          (minRankAux entries 0 (RANK_MAX, USIZE_MAX)).1 < prank entries j)) ∧
    byte_pair_encode tieTable [97, 98, 99] = some [10, 2] := by
  refine ⟨fun entries => minRank_choice entries, ?_⟩
  decide

/-- Witness for C4: the scan on two entries tying at rank 5 picks index 0. -/
theorem claim_C4_witness :
    (minRankAux [(0, 5), (1, 5)] 0 (RANK_MAX, USIZE_MAX)).1 ≤ prank [(0, 5), (1, 5)] 1 ∧
    (minRankAux [(0, 5), (1, 5)] 0 (RANK_MAX, USIZE_MAX)).2 < 2 ∧
    prank [(0, 5), (1, 5)] (minRankAux [(0, 5), (1, 5)] 0 (RANK_MAX, USIZE_MAX)).2 =
      (minRankAux [(0, 5), (1, 5)] 0 (RANK_MAX, USIZE_MAX)).1 := by
  refine ⟨(claim_C4_min_rank_leftmost.1 [(0, 5), (1, 5)]).1 1 (by decide), ?_, ?_⟩
  · exact ((claim_C4_min_rank_leftmost.1 [(0, 5), (1, 5)]).2 (by decide)).1
  · exact ((claim_C4_min_rank_leftmost.1 [(0, 5), (1, 5)]).2 (by decide)).2.1

/-- C3 counterexample: on the table where `abc` is a key but its pairs are
    not, `encode_ordinary` emits the single token 7 via the fast path,
    while the merge algorithm on the same pre-token yields `[0, 1, 2]`. -/
theorem claim_C3_counterexample :
    encode_ordinary fastTable [97, 98, 99] = some [7] ∧
    ((fastTable.split [97, 98, 99]).mapM
      (fun p => byte_pair_encode fastTable p)).map List.flatten = some [0, 1, 2] ∧
    encode_ordinary fastTable [97, 98, 99] ≠
      ((fastTable.split [97, 98, 99]).mapM
        (fun p => byte_pair_encode fastTable p)).map List.flatten := by
  refine ⟨by decide, by decide, ?_⟩
  decide

/-- C3 amended: `encode_ordinary` is the concatenation, in match order, of
    the per-pre-token output of `encodePiece`, which emits a pre-token
    present in the merge table as its single token directly and otherwise
    runs the merge algorithm. -/
theorem claim_C3_amended (c : CoreBPE) (text : Bytes) :
    encode_ordinary c text =
      ((c.split text).mapM (fun p => encodePiece c p)).map List.flatten := by
  rw [encode_ordinary]
  have hgen : ∀ (pieces : List Bytes) (acc : List Token),
      encodeOrdinaryGo c pieces acc =
        ((pieces.mapM (fun p => encodePiece c p)).map (fun ls => acc ++ ls.flatten)) := by
    intro pieces
    induction pieces with
    | nil =>
      intro acc
      rw [List.mapM_nil]
      simp [encodeOrdinaryGo]
    | cons p rest ih =>
      intro acc
      rw [encodeOrdinaryGo]
      cases he : encodePiece c p with
      | none =>
        rw [List.mapM_cons, he]
        rfl
      | some ts =>
        show encodeOrdinaryGo c rest (acc ++ ts) = _
        rw [ih (acc ++ ts), List.mapM_cons, he]
        cases hm : rest.mapM (fun p => encodePiece c p) with
        | none => simp [hm]
        | some ys => simp [hm, List.flatten_cons, List.append_assoc]
  rw [hgen]
  simp

/-- C1 (amended): for every encoding whose merge table contains every
    single-byte sequence as a key and assigns pairwise-distinct ranks, and
    every valid UTF-8 byte string `s` whose pre-tokenizer matches are
    nonempty and concatenate to `s` (the shipped patterns are covering),
    `decode (encode_ordinary s)` succeeds and returns `s`. -/
theorem claim_C1_roundtrip (c : CoreBPE) (s : Bytes)
    (hcov : ∀ b, b < 256 → (List.lookup [b] c.encoder).isSome)
    (hdr : DistinctRanks c.encoder)
    (hutf : Utf8Valid s = true)
    (hsplit : (c.split s).flatten = s)
    (hpieces : ∀ p ∈ c.split s, p ≠ []) :
    ∃ ts, encode_ordinary c s = some ts ∧ decode c ts = .ok s := by
  have hcond : ∀ p ∈ c.split s, p ≠ [] ∧ ∀ b ∈ p, (List.lookup [b] c.encoder).isSome := by
    intro p hp
    refine ⟨hpieces p hp, fun b hb => ?_⟩
    have hbs : b ∈ s := by
      rw [← hsplit]
      exact List.mem_flatten.2 ⟨p, hp, hb⟩
    exact hcov b (Utf8Valid_lt s hutf b hbs)
  obtain ⟨ts, bs, he, hf, hfa⟩ := encodeOrdinaryGo_sound c (c.split s) [] hcond
  refine ⟨ts, ?_, ?_⟩
  · rw [encode_ordinary, he]
    simp
  · rw [decode, decode_bytes_forall c hdr bs ts hfa]
    rw [hf, hsplit]
    show (if Utf8Valid s = true then Except.ok s
      else Except.error TiktokenError.DecodingError) = Except.ok s
    rw [if_pos hutf]

/-- Witness for C1 at the all-bytes table and the input `hi`. -/
theorem claim_C1_witness :
    ∃ ts, encode_ordinary cIdSplit [104, 105] = some ts ∧
      decode cIdSplit ts = .ok [104, 105] := by
  refine claim_C1_roundtrip cIdSplit [104, 105] (fun b hb => byteTable_cov b hb)
    distinctRanks_byteTable (by decide) (by decide) (by decide)

/-- C1 counterexample: the claim as stated quantifies over every encoding
    and omits the pre-tokenizer: with the all-bytes table (all hypotheses
    of the claim hold) but a pattern whose regex never matches (`split`
    returns no pieces, as `Regex::new("x")` does on `a`), the non-matching
    region is dropped, so `decode (encode_ordinary [97])` returns the empty
    string rather than `a`. -/
theorem claim_C1_counterexample :
    (∀ b, b < 256 → (List.lookup [b] cNoMatch.encoder).isSome) ∧
    DistinctRanks cNoMatch.encoder ∧
    Utf8Valid [97] = true ∧
    ¬ ∃ ts, encode_ordinary cNoMatch [97] = some ts ∧ decode cNoMatch ts = .ok [97] := by
  refine ⟨fun b hb => byteTable_cov b hb, distinctRanks_byteTable, by decide, ?_⟩
  rintro ⟨ts, hts, hdec⟩
  rw [show encode_ordinary cNoMatch [97] = some [] from rfl] at hts
  obtain rfl : ([] : List Token) = ts := by injection hts
  rw [show decode cNoMatch [] = Except.ok [] from rfl] at hdec
  simp at hdec

/-- C6: when a substring matched by the special-token regex over the full
    input is disallowed and not allowed, `encode` returns an `EncodingError`
    naming a disallowed-and-not-allowed matched token, and no tokens: the
    check phase runs over the whole input before the emitting loop starts. -/
theorem claim_C6_disallowed_special (c : CoreBPE) (text : Bytes) (A D : List Bytes)
    (f : Bytes → List (Nat × Nat)) (hreg : c.specialRegex = some f)
    (sp : Nat × Nat) (hsp : sp ∈ f text)
    (hd : byteSlice text sp.1 sp.2 ∈ D) (ha : byteSlice text sp.1 sp.2 ∉ A) :
    ∃ tok, tok ∈ D ∧ tok ∉ A ∧
      (∃ sp2 ∈ f text, tok = byteSlice text sp2.1 sp2.2) ∧
      encode c text A D = some (.error (.EncodingError tok)) := by
  have hDne : D.isEmpty = false := by
    cases D with
    | nil => simp at hd
    | cons x xs => rfl
  have hfind : ((f text).find? (fun sp2 =>
      D.contains (byteSlice text sp2.1 sp2.2) &&
        !A.contains (byteSlice text sp2.1 sp2.2))).isSome := by
    rw [List.find?_isSome]
    refine ⟨sp, hsp, ?_⟩
    simp [hd, ha]
  obtain ⟨sp2, hsp2⟩ := Option.isSome_iff_exists.1 hfind
  have hpred := List.find?_some hsp2
  have hmem := List.mem_of_find?_eq_some hsp2
  simp at hpred
  refine ⟨byteSlice text sp2.1 sp2.2, hpred.1, hpred.2, ⟨sp2, hmem, rfl⟩, ?_⟩
  rw [encode]
  simp only [hreg, hDne, Bool.false_eq_true, if_false, hsp2]
  rfl

/-- Witness for C6 at the concrete special-token encoding: the text is
    exactly `<|endoftext|>`, disallowed and not allowed. -/
theorem claim_C6_witness :
    ∃ tok, tok ∈ [eotBytes] ∧ tok ∉ ([] : List Bytes) ∧
      (∃ sp2 ∈ [((0 : Nat), (13 : Nat))], tok = byteSlice eotBytes sp2.1 sp2.2) ∧
      encode cSpecial eotBytes [] [eotBytes] =
        some (.error (.EncodingError tok)) := by
  refine claim_C6_disallowed_special cSpecial eotBytes [] [eotBytes]
    (fun _ => [(0, 13)]) rfl (0, 13) (by decide) (by decide) (by decide)

/-- The lookup order of `decode_bytes`: the ordinary reverse map first,
    then the special reverse map. -/
def reverseLookup (c : CoreBPE) (t : Token) : Option Bytes :=
  match List.lookup t c.decoder with
  | some bs => some bs
  | none => List.lookup t c.specialDecoder

/-- C7: `decode_bytes` concatenates, in order, the byte sequences found by
    looking each token up in the ordinary reverse map first and then the
    special reverse map; when some token is in neither map it fails with
    `InvalidToken` for such a token and returns no output. -/
theorem claim_C7_decode_bytes (c : CoreBPE) (ts : List Token) :
    ((∀ t ∈ ts, (reverseLookup c t).isSome) →
      decode_bytes c ts = .ok ((ts.map (fun t => (reverseLookup c t).getD [])).flatten)) ∧
    ((∃ t ∈ ts, reverseLookup c t = none) →
      ∃ t2, t2 ∈ ts ∧ reverseLookup c t2 = none ∧
        decode_bytes c ts = .error (.InvalidToken t2)) := by
  induction ts with
  | nil =>
    constructor
    · intro
      rfl
    · rintro ⟨t, ht, -⟩
      simp at ht
  | cons t ts ih =>
    constructor
    · intro h
      have hh := h t (List.mem_cons_self _ _)
      cases hl1 : List.lookup t c.decoder with
      | some bs1 =>
        have hr : reverseLookup c t = some bs1 := by rw [reverseLookup, hl1]
        rw [decode_bytes, hl1, ih.1 (fun x hx => h x (List.mem_cons_of_mem _ hx))]
        simp only [List.map_cons, hr, Option.getD_some, List.flatten_cons]
        rfl
      | none =>
        cases hl2 : List.lookup t c.specialDecoder with
        | some bs2 =>
          have hr : reverseLookup c t = some bs2 := by rw [reverseLookup, hl1, hl2]
          rw [decode_bytes, hl1, hl2, ih.1 (fun x hx => h x (List.mem_cons_of_mem _ hx))]
          simp only [List.map_cons, hr, Option.getD_some, List.flatten_cons]
          rfl
        | none =>
          rw [reverseLookup, hl1, hl2] at hh
          simp at hh
    · rintro ⟨t0, ht0, hnone⟩
      rcases List.mem_cons.1 ht0 with rfl | hmem2
      · have hboth : List.lookup t0 c.decoder = none ∧
            List.lookup t0 c.specialDecoder = none := by
          rw [reverseLookup] at hnone
          cases hl1 : List.lookup t0 c.decoder with
          | some v => rw [hl1] at hnone; simp at hnone
          | none => rw [hl1] at hnone; exact ⟨rfl, hnone⟩
        refine ⟨t0, List.mem_cons_self _ _, by rw [reverseLookup, hboth.1, hboth.2], ?_⟩
        rw [decode_bytes, hboth.1, hboth.2]
      · cases hl1 : List.lookup t c.decoder with
        | some bs1 =>
          obtain ⟨t2, hm2, hn2, herr⟩ := ih.2 ⟨t0, hmem2, hnone⟩
          refine ⟨t2, List.mem_cons_of_mem _ hm2, hn2, ?_⟩
          rw [decode_bytes, hl1, herr]
          rfl
        | none =>
          cases hl2 : List.lookup t c.specialDecoder with
          | some bs2 =>
            obtain ⟨t2, hm2, hn2, herr⟩ := ih.2 ⟨t0, hmem2, hnone⟩
            refine ⟨t2, List.mem_cons_of_mem _ hm2, hn2, ?_⟩
            rw [decode_bytes, hl1, hl2, herr]
            rfl
          | none =>
            refine ⟨t, List.mem_cons_self _ _, by rw [reverseLookup, hl1, hl2], ?_⟩
            rw [decode_bytes, hl1, hl2]

/-- Witness for C7: decoding the unassigned token `u32::MAX` fails with
    `InvalidToken u32::MAX`; decoding assigned tokens concatenates the
    ordinary byte sequence and the special byte sequence in order. -/
theorem claim_C7_witness :
    decode_bytes cSpecial [4294967295] = .error (.InvalidToken 4294967295) ∧
    decode_bytes cSpecial [5, 100257] = .ok ([104] ++ eotBytes) := by
  constructor
  · obtain ⟨t2, hmem, -, herr⟩ := (claim_C7_decode_bytes cSpecial [4294967295]).2
      ⟨4294967295, by decide, by decide⟩
    have ht2 : t2 = 4294967295 := by simpa using hmem
    rw [ht2] at herr
    exact herr
  · have h := (claim_C7_decode_bytes cSpecial [5, 100257]).1 (by decide)
    rw [h]
    rfl

/-- C10: calling `encode` with empty allowed and disallowed lists returns
    exactly `encode_ordinary` (as `Ok`, with panics agreeing), for every
    text; the hypothesis states that the pre-tokenizer yields no pieces on
    the empty input, which holds for every real regex since `find_iter`
    can yield only empty matches there. -/
theorem claim_C10_encode_empty_special (c : CoreBPE) (text : Bytes)
    (hsplit : c.split [] = []) :
    encode c text [] [] = (encode_ordinary c text).map Except.ok := by
  rw [encode]
  simp only [List.isEmpty_nil, if_true]
  cases text with
  | nil =>
    rw [show encodeLoop c [] [] (List.length ([] : Bytes) + 1) 0 [] = some [] from rfl]
    rw [encode_ordinary, hsplit]
    rfl
  | cons b rest =>
    rw [encodeLoop]
    rw [if_pos (show 0 < (b :: rest).length from by simp)]
    have hfound : (match c.specialRegex with
        | some f => (f ((b :: rest).drop 0)).find? (fun sp =>
            ([] : List Bytes).contains (byteSlice (b :: rest) (0 + sp.1) (0 + sp.2)))
        | none => none) = (none : Option (Nat × Nat)) := by
      cases c.specialRegex with
      | none => rfl
      | some f =>
        simp [List.find?_eq_none]
    rw [hfound]
    rw [show byteSlice (b :: rest) 0 (b :: rest).length = b :: rest from by
      simp [byteSlice]]
    cases encode_ordinary c (b :: rest) with
    | none => rfl
    | some ts => simp

/-- Witness for C10 at the all-bytes encoding and the input `h`. -/
theorem claim_C10_witness :
    encode cIdSplit [104] [] [] = (encode_ordinary cIdSplit [104]).map Except.ok :=
  claim_C10_encode_empty_special cIdSplit [104] (by decide)

/- ----------------------------------------------------------------
   Claim C8: the vocabulary parser and duplicate ranks.
   ---------------------------------------------------------------- -/

/-- A two-line tiktoken vocabulary file giving rank 0 twice:
    `YQ==` is base64 for the byte `a`, `Yg==` for the byte `b`. -/
def dupRankInput : List Char :=
  ['Y', 'Q', '=', '=', ' ', '0', '\n', 'Y', 'g', '=', '=', ' ', '0']

/-- C8: counterexample. The claim says `parse_tiktoken_bpe` fails with a
    `DataError` on every input in which two entries carry the same decimal
    rank. On the well-formed two-line input whose entries both carry rank 0
    the parser succeeds and transcribes both entries; no duplicate-rank
    check exists in src/vocab.rs lines 78-109. -/
theorem claim_C8_counterexample :
    parse_tiktoken_bpe dupRankInput = Except.ok [([97], 0), ([98], 0)] := by
  rfl

/-- C8: amended. The parser does not enforce rank uniqueness: it only
    transcribes each line into the map. An input with two distinct keys
    carrying the same rank parses successfully, and the resulting map holds
    both entries with that shared rank. -/
theorem claim_C8_amended :
    ∃ m, parse_tiktoken_bpe dupRankInput = Except.ok m ∧
      ([97], 0) ∈ m ∧ ([98], 0) ∈ m ∧ ([97] : Bytes) ≠ [98] :=
  ⟨[([97], 0), ([98], 0)], rfl, by simp, by simp, by simp⟩

/- ----------------------------------------------------------------
   Claim C9: the shipped cl100k pattern versus the canonical one.
   ---------------------------------------------------------------- -/

/-- C9: the pre-tokenizer pattern constant `CL100K_PAT_STR` shipped in
    src/encodings.rs line 56 does NOT equal, character for character, the
    canonical cl100k reference pattern the spec requires verbatim: the
    shipped constant is a simplified pattern. This is the code bug the
    claim's property fails on. -/
theorem claim_C9_pattern_divergence :
    (CL100K_PAT_STR == CL100K_CANONICAL_PAT) = false := by
  decide
